import Mathlib

/-!
Shallow embedding of `src/index.js` (netlify-plugin-affiliate-monitor).

Strings are modelled as `List Char`.  JavaScript's `String.prototype.split`
followed by `Array.prototype.join` (the repair rewrite on line 167 of the
source) is modelled by `jsSplit` / `interc` / `jsReplaceAll`.  The HTTP
checker `checkUrl` (lines 41-76) is modelled as a pure function of the single
observable probe event (response / network error / timeout) delivered to its
callbacks; `checkUrlWithRetry` (lines 78-87) as a pure function of the
outcome of each attempt, also reporting the number of probe calls and the
list of back-off delays.  The regex scan of `extractAffiliateLinks`
(lines 91-99) is modelled by a direct scanner specialised to the fixed
regex shape `href=["'](https?://[^"']*P[^"']*)["']` with flags `gi`,
where the fragment `P` is taken literally after removing backslash escapes
(the default pattern only uses `\.`); case-insensitivity is via `Char.toLower`.
The `onPostBuild` orchestration (lines 103-232) is modelled over an explicit
file store `FileSys` with the post-retry probe outcome per URL supplied as an
environment function.
-/

/-- Lower-case a character, modelling the regex `i` flag (ASCII is all the
source's patterns use). -/
def lcc (c : Char) : Char := c.toLower

/-- Boolean prefix test on raw characters. -/
def isPre : List Char → List Char → Bool
  | [], _ => true
  | _ :: _, [] => false
  | a :: p, b :: s => a == b && isPre p s

/-- Case-insensitive prefix test (regex `i` flag). -/
def ciPre : List Char → List Char → Bool
  | [], _ => true
  | _ :: _, [] => false
  | a :: p, b :: s => lcc a == lcc b && ciPre p s

/-- Case-insensitive substring test: does `p` occur somewhere in `s`? -/
def ciInf (p : List Char) : List Char → Bool
  | [] => ciPre p []
  | c :: s => ciPre p (c :: s) || ciInf p s

/-- Number of positions `i ≤ s.length` at which `u` occurs in `s`
(all positions, overlapping occurrences included). -/
def occCount (u : List Char) : List Char → Nat
  | [] => if isPre u [] then 1 else 0
  | c :: s => (if isPre u (c :: s) then 1 else 0) + occCount u s

/-- Fuel-driven worker for JavaScript `String.split` with a nonempty literal
separator: greedy left-to-right, non-overlapping.  The fuel is the length of
the string, consumed one character (or one separator) at a time. -/
def splitFuel (u : List Char) : Nat → List Char → List (List Char)
  | _, [] => [[]]
  | 0, s => [s]
  | f + 1, c :: s =>
    if isPre u (c :: s) && !u.isEmpty then
      [] :: splitFuel u f ((c :: s).drop u.length)
    else
      match splitFuel u f s with
      | [] => [[c]]
      | p :: ps => (c :: p) :: ps

/-- JavaScript `s.split(u)` for string separators (source line 167).
An empty separator splits between every character, as in JS. -/
def jsSplit (s u : List Char) : List (List Char) :=
  if u.isEmpty then s.map (fun c => [c]) else splitFuel u s.length s

/-- JavaScript `parts.join(f)`. -/
def interc (f : List Char) : List (List Char) → List Char
  | [] => []
  | [p] => p
  | p :: q :: ps => p ++ f ++ interc f (q :: ps)

/-- The repair rewrite of source line 167: `html.split(url).join(fallbackUrl)`,
i.e. plain global substring replacement (not regex). -/
def jsReplaceAll (s u f : List Char) : List Char := interc f (jsSplit s u)

theorem isPre_nil_iff (u : List Char) : isPre u [] = true ↔ u = [] := by
  cases u <;> simp [isPre]

theorem isPre_self_append (u t : List Char) : isPre u (u ++ t) = true := by
  induction u with
  | nil => simp [isPre]
  | cons a p ih => simp [isPre, ih]

theorem isPre_extend (u x t : List Char) (h : isPre u x = true) :
    isPre u (x ++ t) = true := by
  induction u generalizing x with
  | nil => simp [isPre]
  | cons a p ih =>
    cases x with
    | nil => simp [isPre] at h
    | cons b s =>
      simp [isPre] at h ⊢
      exact ⟨h.1, ih s h.2⟩

theorem occCount_le_append (u y x : List Char) :
    occCount u x ≤ occCount u (y ++ x) := by
  induction y with
  | nil => simp
  | cons c y ih =>
    have : occCount u ((c :: y) ++ x)
        = (if isPre u (c :: (y ++ x)) then 1 else 0) + occCount u (y ++ x) := rfl
    rw [this]
    exact Nat.le_trans ih (Nat.le_add_left _ _)

theorem occCount_cons_self (f x : List Char) (hf : f ≠ []) :
    1 + occCount f x ≤ occCount f (f ++ x) := by
  cases f with
  | nil => exact absurd rfl hf
  | cons c f' =>
    have h1 : occCount (c :: f') ((c :: f') ++ x)
        = (if isPre (c :: f') (c :: f' ++ x) then 1 else 0)
          + occCount (c :: f') (f' ++ x) := rfl
    rw [h1, isPre_self_append (c :: f') x]
    simp only [if_pos]
    exact Nat.add_le_add_left (occCount_le_append _ f' x) 1

theorem interc_occCount (f : List Char) (hf : f ≠ []) :
    ∀ parts : List (List Char),
      parts.length - 1 ≤ occCount f (interc f parts) := by
  intro parts
  induction parts with
  | nil => simp
  | cons p ps ih =>
    cases ps with
    | nil => simp
    | cons q ps' =>
      have hshape : interc f (p :: q :: ps') = p ++ (f ++ interc f (q :: ps')) := by
        simp [interc]
      rw [hshape]
      have h2 : 1 + occCount f (interc f (q :: ps'))
          ≤ occCount f (f ++ interc f (q :: ps')) :=
        occCount_cons_self f _ hf
      have h3 : occCount f (f ++ interc f (q :: ps'))
          ≤ occCount f (p ++ (f ++ interc f (q :: ps'))) :=
        occCount_le_append f p _
      have h4 : (q :: ps').length - 1 ≤ occCount f (interc f (q :: ps')) := ih
      have : (p :: q :: ps').length - 1 = (q :: ps').length := by simp
      rw [this]
      have h5 : (q :: ps').length ≤ 1 + occCount f (interc f (q :: ps')) := by
        simp only [List.length_cons] at h4 ⊢
        omega
      exact Nat.le_trans (Nat.le_trans h5 h2) h3

theorem splitFuel_ne_nil (u : List Char) (fuel : Nat) (s : List Char) :
    splitFuel u fuel s ≠ [] := by
  match fuel, s with
  | _, [] => simp [splitFuel]
  | 0, c :: s => simp [splitFuel]
  | f + 1, c :: s =>
    simp only [splitFuel]
    split
    · simp
    · split <;> simp

theorem splitFuel_head_pre (u : List Char) (fuel : Nat) (s : List Char)
    (p : List Char) (ps : List (List Char))
    (h : splitFuel u fuel s = p :: ps) : ∃ t, p ++ t = s := by
  induction fuel generalizing s p ps with
  | zero =>
    cases s with
    | nil => simp [splitFuel] at h; exact ⟨[], by simp [h.1]⟩
    | cons c s' => simp [splitFuel] at h; exact ⟨[], by simp [h.1]⟩
  | succ f ih =>
    cases s with
    | nil => simp [splitFuel] at h; exact ⟨[], by simp [h.1]⟩
    | cons c s' =>
      simp only [splitFuel] at h
      split at h
      · have := h
        simp at this
        exact ⟨c :: s', by simp [← this.1]⟩
      · revert h
        split
        · next heq =>
          exact absurd heq (splitFuel_ne_nil u f s')
        · next p' ps' heq =>
          intro h
          obtain ⟨t, ht⟩ := ih s' p' ps' heq
          cases h
          exact ⟨t, by simp [ht]⟩

theorem occCount_nil_of_ne (u : List Char) (hu : u ≠ []) : occCount u [] = 0 := by
  cases u with
  | nil => exact absurd rfl hu
  | cons a p => simp [occCount, isPre]

theorem splitFuel_seg_no_occ (u : List Char) (hu : u ≠ []) :
    ∀ fuel s, s.length ≤ fuel →
      ∀ seg ∈ splitFuel u fuel s, occCount u seg = 0 := by
  intro fuel
  induction fuel with
  | zero =>
    intro s hs seg hseg
    cases s with
    | nil =>
      simp [splitFuel] at hseg
      rw [hseg]
      exact occCount_nil_of_ne u hu
    | cons c s' => simp at hs
  | succ f ih =>
    intro s hs seg hseg
    cases s with
    | nil =>
      simp [splitFuel] at hseg
      rw [hseg]
      exact occCount_nil_of_ne u hu
    | cons c s' =>
      simp only [splitFuel] at hseg
      split at hseg
      · next hcond =>
        simp only [List.mem_cons] at hseg
        cases hseg with
        | inl h => rw [h]; exact occCount_nil_of_ne u hu
        | inr h =>
          have hlen : ((c :: s').drop u.length).length ≤ f := by
            have hu1 : 1 ≤ u.length := by
              cases u with
              | nil => exact absurd rfl hu
              | cons a p => simp
            simp only [List.length_drop, List.length_cons]
            simp only [List.length_cons] at hs
            omega
          exact ih _ hlen seg h
      · next hcond =>
        have hnp : isPre u (c :: s') = false := by
          have hne : u.isEmpty = false := by
            cases u with
            | nil => exact absurd rfl hu
            | cons a p => simp
          simp [hne] at hcond
          exact hcond
        revert hseg
        split
        · next heq => exact absurd heq (splitFuel_ne_nil u f s')
        · next p' ps' heq =>
          intro hseg
          have hlen : s'.length ≤ f := by
            simp only [List.length_cons] at hs; omega
          simp only [List.mem_cons] at hseg
          cases hseg with
          | inl h =>
            subst h
            have hp' : occCount u p' = 0 := ih s' hlen p' (by rw [heq]; simp)
            have : occCount u (c :: p') =
                (if isPre u (c :: p') then 1 else 0) + occCount u p' := rfl
            rw [this, hp']
            obtain ⟨t, ht⟩ := splitFuel_head_pre u f s' p' ps' heq
            have hnp2 : isPre u (c :: p') = false := by
              by_contra hcontra
              have h1 : isPre u (c :: p') = true := by
                cases h : isPre u (c :: p') with
                | true => rfl
                | false => exact absurd h hcontra
              have h2 : isPre u ((c :: p') ++ t) = true := isPre_extend u _ t h1
              have h3 : (c :: p') ++ t = c :: s' := by simp [ht]
              rw [h3] at h2
              rw [h2] at hnp
              exact Bool.noConfusion hnp
            rw [hnp2]
            simp
          | inr h => exact ih s' hlen seg (by rw [heq]; simp [h])

theorem jsSplit_seg_no_occ (s u : List Char) (hu : u ≠ []) :
    ∀ seg ∈ jsSplit s u, occCount u seg = 0 := by
  intro seg hseg
  have hne : u.isEmpty = false := by
    cases u with
    | nil => exact absurd rfl hu
    | cons a p => simp
  simp only [jsSplit, hne, Bool.false_eq_true, if_false] at hseg
  exact splitFuel_seg_no_occ u hu s.length s (Nat.le_refl _) seg hseg

/-- Claim C4 (amended): the repair rewrite (source line 167,
`html.split(url).join(fallbackUrl)`) is plain global substring replacement:
every split segment of the old text contains no occurrence of the broken URL
(all original occurrences are removed), and the rewritten text contains the
fallback URL in at least as many positions as the URL previously occupied.
Zero remaining occurrences of the URL is NOT guaranteed in general: a new
occurrence can be formed across a replacement boundary (see the
counterexample). -/
theorem c4_replaceAll_amended (s u f : List Char) (hu : u ≠ []) (hf : f ≠ []) :
    (∀ seg ∈ jsSplit s u, occCount u seg = 0) ∧
      (jsSplit s u).length - 1 ≤ occCount f (jsReplaceAll s u f) := by
  constructor
  · exact jsSplit_seg_no_occ s u hu
  · exact interc_occCount f hf (jsSplit s u)

/-- Witness for C4's amended theorem at a concrete input: replacing the one
occurrence of "b" in "abc" by "dd". -/
theorem c4_replaceAll_amended_witness :
    (∀ seg ∈ jsSplit ("abc".toList) ("b".toList), occCount ("b".toList) seg = 0) ∧
      (jsSplit ("abc".toList) ("b".toList)).length - 1
        ≤ occCount ("dd".toList) (jsReplaceAll ("abc".toList) ("b".toList) ("dd".toList)) :=
  c4_replaceAll_amended ("abc".toList) ("b".toList) ("dd".toList)
    (by decide) (by decide)

/-- The outcome object resolved by `checkUrl` (source lines 50-72): fields
`status`, `ok`, `redirectTo` (only set on the redirect branch) and `error`
(only set on the error/timeout branches). -/
structure Outcome where
  status : Nat
  ok : Bool
  redirectTo : Option (List Char) := none
  error : Option (List Char) := none
deriving DecidableEq

/-- The single observable event a probe delivers to `checkUrl`'s callbacks:
a response (status code plus optional `location` header), a network-level
error, or a timeout. -/
inductive ProbeEvent where
  | response (status : Nat) (location : Option (List Char))
  | netError (msg : List Char)
  | timeout
deriving DecidableEq

/-- The redirect status list of source line 50. -/
def redirectCodes : List Nat := [301, 302, 303, 307, 308]

/-- JavaScript truthiness of `res.headers.location`: present and nonempty. -/
def locTruthy : Option (List Char) → Bool
  | none => false
  | some l => !l.isEmpty

/-- Model of `checkUrl` (source lines 41-76) as a function of the probe
event.  Every branch resolves the promise with data; nothing throws. -/
def checkUrl : ProbeEvent → Outcome
  | .response s loc =>
    if redirectCodes.contains s && locTruthy loc then
      { status := s, redirectTo := loc, ok := true }
    else
      { status := s, ok := decide (200 ≤ s) && decide (s < 400) }
  | .netError m => { status := 0, ok := false, error := some m }
  | .timeout => { status := 0, ok := false, error := some ("timeout".toList) }

/-- Result of the whole retry sequence: the returned outcome, how many times
`checkUrl` was called, and the list of back-off delays (ms) awaited. -/
structure RetryResult where
  out : Outcome
  calls : Nat
  delays : List Nat
deriving DecidableEq

/-- Worker for `checkUrlWithRetry`: `i` is the 0-based attempt index of the
code's loop variable, `remaining` the number of attempts still allowed after
this one (`retries - i`).  Mirrors source lines 78-87: probe, return on
`ok`, otherwise wait `1000 * (i + 1)` ms when an attempt remains. -/
def retryGo (probe : Nat → Outcome) : Nat → Nat → RetryResult
  | i, 0 => { out := probe i, calls := 1, delays := [] }
  | i, r + 1 =>
    if (probe i).ok then
      { out := probe i, calls := 1, delays := [] }
    else
      let rest := retryGo probe (i + 1) r
      { out := rest.out, calls := rest.calls + 1,
        delays := 1000 * (i + 1) :: rest.delays }

/-- Model of `checkUrlWithRetry(url, timeoutMs, retries)` (source lines
78-87), with the outcome of attempt `i` supplied by `probe i`. -/
def checkUrlWithRetry (probe : Nat → Outcome) (retries : Nat) : RetryResult :=
  retryGo probe 0 retries

theorem retryGo_all_fail (probe : Nat → Outcome) :
    ∀ r i, (∀ k, k ≤ r → (probe (i + k)).ok = false) →
      retryGo probe i r =
        { out := probe (i + r), calls := r + 1,
          delays := (List.range r).map (fun k => 1000 * (i + k + 1)) } := by
  intro r
  induction r with
  | zero => intro i _; simp [retryGo]
  | succ r ih =>
    intro i hfail
    have h0 : (probe i).ok = false := by
      have := hfail 0 (Nat.zero_le _)
      simpa using this
    have hrec := ih (i + 1) (fun k hk => by
      have := hfail (k + 1) (by omega)
      have heq : i + (k + 1) = i + 1 + k := by omega
      rw [heq] at this
      exact this)
    simp only [retryGo, h0, Bool.false_eq_true, if_false, hrec]
    have hi : i + 1 + r = i + (r + 1) := by omega
    have hd : (List.range (r + 1)).map (fun k => 1000 * (i + k + 1))
        = 1000 * (i + 1) :: (List.range r).map (fun k => 1000 * (i + 1 + k + 1)) := by
      rw [List.range_succ_eq_map, List.map_cons, List.map_map]
      refine List.cons_eq_cons.mpr ⟨by simp, ?_⟩
      apply List.map_congr_left
      intro a _
      simp only [Function.comp_apply]
      omega
    rw [hi, hd]

theorem retryGo_first_ok (probe : Nat → Outcome) :
    ∀ j r i, j ≤ r → (∀ k, k < j → (probe (i + k)).ok = false) →
      (probe (i + j)).ok = true →
      retryGo probe i r =
        { out := probe (i + j), calls := j + 1,
          delays := (List.range j).map (fun k => 1000 * (i + k + 1)) } := by
  intro j
  induction j with
  | zero =>
    intro r i _ _ hok
    simp only [Nat.add_zero] at hok
    cases r with
    | zero => simp [retryGo]
    | succ r => simp [retryGo, hok]
  | succ j ih =>
    intro r i hjr hfail hok
    have h0 : (probe i).ok = false := by
      have := hfail 0 (Nat.succ_pos _)
      simpa using this
    cases r with
    | zero => omega
    | succ r =>
      have hrec := ih r (i + 1) (by omega)
        (fun k hk => by
          have := hfail (k + 1) (by omega)
          have heq : i + (k + 1) = i + 1 + k := by omega
          rw [heq] at this
          exact this)
        (by
          have heq : i + 1 + j = i + (j + 1) := by omega
          rw [heq]
          exact hok)
      simp only [retryGo, h0, Bool.false_eq_true, if_false, hrec]
      have hi : i + 1 + j = i + (j + 1) := by omega
      have hd : (List.range (j + 1)).map (fun k => 1000 * (i + k + 1))
          = 1000 * (i + 1) :: (List.range j).map (fun k => 1000 * (i + 1 + k + 1)) := by
        rw [List.range_succ_eq_map, List.map_cons, List.map_map]
        refine List.cons_eq_cons.mpr ⟨by simp, ?_⟩
        apply List.map_congr_left
        intro a _
        simp only [Function.comp_apply]
        omega
      rw [hi, hd]

/-- Claim C3 (confirmed): when every attempt fails, `checkUrlWithRetry`
calls `checkUrl` exactly `retries + 1` times, waits `1000 ms × attemptIndex`
after each failing attempt that is not the last (1000, 2000, ...), and
returns the outcome of the last attempt verbatim; and it stops at the first
`ok = true` attempt, returning that attempt's outcome after `j + 1` calls. -/
theorem c3_retry_bound (probe : Nat → Outcome) (retries : Nat) :
    ((∀ i, i ≤ retries → (probe i).ok = false) →
      checkUrlWithRetry probe retries =
        { out := probe retries, calls := retries + 1,
          delays := (List.range retries).map (fun k => 1000 * (k + 1)) }) ∧
    (∀ j, j ≤ retries → (∀ k, k < j → (probe k).ok = false) →
      (probe j).ok = true →
      checkUrlWithRetry probe retries =
        { out := probe j, calls := j + 1,
          delays := (List.range j).map (fun k => 1000 * (k + 1)) }) := by
  constructor
  · intro hfail
    have := retryGo_all_fail probe retries 0 (fun k hk => by
      simpa using hfail k hk)
    simpa [checkUrlWithRetry] using this
  · intro j hj hfail hok
    have := retryGo_first_ok probe j retries 0 hj
      (fun k hk => by simpa using hfail k hk) (by simpa using hok)
    simpa [checkUrlWithRetry] using this

/-- Witness for C3 at a concrete input: a probe that always fails with
HTTP 500 and `retries = 2` gives 3 calls and delays [1000, 2000]. -/
theorem c3_retry_bound_witness :
    checkUrlWithRetry (fun _ => checkUrl (ProbeEvent.response 500 none)) 2 =
      { out := checkUrl (ProbeEvent.response 500 none), calls := 3,
        delays := (List.range 2).map (fun k => 1000 * (k + 1)) } :=
  (c3_retry_bound (fun _ => checkUrl (ProbeEvent.response 500 none)) 2).1
    (fun i _ => by decide)

/-- Claim C2 (counterexample): a probe response with redirect status 301 and
no `location` header makes `checkUrl` resolve with `ok = true` (301 lies in
the `[200, 400)` range of the generic branch), not `ok = false` as claimed. -/
theorem c2_redirect_no_location_counterexample :
    301 ∈ redirectCodes ∧
      checkUrl (ProbeEvent.response 301 none) =
        { status := 301, ok := true, redirectTo := none, error := none } := by
  constructor
  · decide
  · rfl

/-- Claim C2 (amended): for every probe response whose status code is in
{301, 302, 303, 307, 308} but which carries no (truthy) `location` header,
`checkUrl` falls through to the generic range rule and returns `ok = true`
(all five codes lie in `[200, 400)`), with the `status` field set to that
code and no redirect target recorded. -/
theorem c2_redirect_no_location_amended (s : Nat) (loc : Option (List Char))
    (hs : s ∈ redirectCodes) (hloc : locTruthy loc = false) :
    checkUrl (ProbeEvent.response s loc) =
      { status := s, ok := true, redirectTo := none, error := none } := by
  have hrange : (decide (200 ≤ s) && decide (s < 400)) = true := by
    simp only [redirectCodes, List.mem_cons, List.not_mem_nil, or_false] at hs
    rcases hs with h | h | h | h | h <;> subst h <;> decide
  simp only [checkUrl, hloc, Bool.and_false, Bool.false_eq_true, if_false, hrange]

/-- Witness for C2's amended theorem at status 302 with an absent header. -/
theorem c2_redirect_no_location_amended_witness :
    checkUrl (ProbeEvent.response 302 none) =
      { status := 302, ok := true, redirectTo := none, error := none } :=
  c2_redirect_no_location_amended 302 none (by decide) (by decide)

theorem retryGo_out_is_attempt (probe : Nat → Outcome) :
    ∀ r i, ∃ j, i ≤ j ∧ j ≤ i + r ∧ (retryGo probe i r).out = probe j := by
  intro r
  induction r with
  | zero => intro i; exact ⟨i, Nat.le_refl i, by omega, rfl⟩
  | succ r ih =>
    intro i
    by_cases h : (probe i).ok = true
    · exact ⟨i, Nat.le_refl i, by omega, by simp [retryGo, h]⟩
    · obtain ⟨j, hj1, hj2, hj3⟩ := ih (i + 1)
      refine ⟨j, by omega, by omega, ?_⟩
      have h' : (probe i).ok = false := by
        cases hh : (probe i).ok with
        | true => exact absurd hh h
        | false => rfl
      simp [retryGo, h', hj3]

/-- Claim C7 (confirmed on the event model): `checkUrl` never throws — every
probe event, including a network-level error and a timeout, is turned into
data: an error event yields `ok = false`, `status = 0` and the error message;
a timeout yields `ok = false`, `status = 0`, `error = "timeout"`.  And
`checkUrlWithRetry` only ever returns the data outcome of one of its
attempts, so it never throws either. -/
theorem c7_never_throws (m : List Char) :
    checkUrl (ProbeEvent.netError m)
        = { status := 0, ok := false, redirectTo := none, error := some m } ∧
      checkUrl ProbeEvent.timeout
        = { status := 0, ok := false, redirectTo := none,
            error := some ("timeout".toList) } ∧
      ∀ (probe : Nat → Outcome) (retries : Nat),
        ∃ j, j ≤ retries ∧ (checkUrlWithRetry probe retries).out = probe j := by
  refine ⟨rfl, rfl, ?_⟩
  intro probe retries
  obtain ⟨j, _, hj2, hj3⟩ := retryGo_out_is_attempt probe retries 0
  exact ⟨j, by omega, hj3⟩

/-- Characters that terminate the `[^"']*` character class of the source
regex (line 93): both quote characters, whichever delimiter opened the
attribute. -/
def notQuote (c : Char) : Bool := !(c == '"' || c == '\x27')

/-- Interpretation of the pattern fragment substituted into the regex
(`new RegExp` on line 93): a backslash escapes the next character to a
literal (the default pattern only uses `\.`); the remainder is taken
literally.  Regex metacharacters beyond such escapes are outside this model
— every pattern the claims concern is literal-after-unescaping. -/
def unescapeP : List Char → List Char
  | [] => []
  | '\\' :: c :: s => c :: unescapeP s
  | c :: s => c :: unescapeP s

/-- Length of the scheme part matched by `https?://` (case-insensitive) at
the head of `s2`, or 0 when neither scheme matches. -/
def schemeLen (s2 : List Char) : Nat :=
  if ciPre ("https://".toList) s2 then 8
  else if ciPre ("http://".toList) s2 then 7
  else 0

/-- One attempt of the regex `href=["'](https?://[^"']*P[^"']*)["']` (flags
`gi`, source line 93) anchored at the start of `s`, with `pat` the literal
pattern fragment.  Returns the captured URL and the text after the closing
quote.  The capture is the scheme followed by the maximal quote-free run,
provided the pattern occurs (case-insensitively) in that run and a quote
character (either kind) terminates it. -/
def matchAt (pat s : List Char) : Option (List Char × List Char) :=
  if ciPre ("href=".toList) s then
    match s.drop 5 with
    | [] => none
    | q :: s2 =>
      if notQuote q then none
      else if schemeLen s2 == 0 then none
      else
        let run := (s2.drop (schemeLen s2)).takeWhile notQuote
        let rest := (s2.drop (schemeLen s2)).dropWhile notQuote
        if ciInf pat run then
          match rest with
          | [] => none
          | _ :: rest2 => some (s2.take (schemeLen s2) ++ run, rest2)
        else none
  else none

/-- Fuel-driven scan of the whole document: at each position try `matchAt`;
on a match, emit the capture and resume after the closing quote (mirroring
`re.exec`'s `lastIndex` advance); otherwise move one character right. -/
def extractFuel (pat : List Char) : Nat → List Char → List (List Char)
  | 0, _ => []
  | _ + 1, [] => []
  | f + 1, c :: s =>
    match matchAt pat (c :: s) with
    | some (url, rest) => url :: extractFuel pat f rest
    | none => extractFuel pat f s

/-- Model of `extractAffiliateLinks(html, pattern)` (source lines 91-99). -/
def extractAffiliateLinks (html pat : List Char) : List (List Char) :=
  extractFuel (unescapeP pat) html.length html

theorem lcc_quote_dq : lcc '"' = '"' := by decide

theorem ciInf_extend_left (p r x : List Char) (h : ciInf p r = true) :
    ciInf p (x ++ r) = true := by
  induction x with
  | nil => simpa using h
  | cons c x ih =>
    have : ciInf p ((c :: x) ++ r) = (ciPre p (c :: (x ++ r)) || ciInf p (x ++ r)) := rfl
    rw [this, ih]
    simp

theorem ciPre_take_append (p s t : List Char) (h : ciPre p s = true) :
    ciPre p (s.take p.length ++ t) = true := by
  induction p generalizing s with
  | nil => simp [ciPre]
  | cons a p' ih =>
    cases s with
    | nil => simp [ciPre] at h
    | cons b s' =>
      simp only [ciPre, Bool.and_eq_true] at h
      have : (b :: s').take (a :: p').length ++ t
          = b :: (s'.take p'.length ++ t) := by simp
      rw [this]
      simp only [ciPre, Bool.and_eq_true]
      exact ⟨h.1, ih s' h.2⟩

theorem ciPre_take_no_quote (p s : List Char)
    (hp : ∀ a ∈ p, lcc a ≠ '"' ∧ lcc a ≠ '\x27') (h : ciPre p s = true) :
    ∀ c ∈ s.take p.length, notQuote c = true := by
  induction p generalizing s with
  | nil => simp
  | cons a p' ih =>
    cases s with
    | nil => simp [ciPre] at h
    | cons b s' =>
      simp only [ciPre, Bool.and_eq_true, beq_iff_eq] at h
      intro c hc
      simp only [List.length_cons, List.take_succ_cons, List.mem_cons] at hc
      cases hc with
      | inl hcb =>
        subst hcb
        have ha := hp a (by simp)
        cases hq : notQuote c with
        | true => rfl
        | false =>
          exfalso
          simp only [notQuote, Bool.not_eq_false', Bool.or_eq_true, beq_iff_eq] at hq
          cases hq with
          | inl h1 =>
            subst h1
            exact ha.1 (by rw [h.1]; decide)
          | inr h1 =>
            subst h1
            exact ha.2 (by rw [h.1]; decide)
      | inr hcs =>
        exact ih s' (fun a' ha' => hp a' (by simp [ha'])) h.2 c hcs

theorem matchAt_spec (pat s url rest : List Char)
    (h : matchAt pat s = some (url, rest)) :
    (∀ c ∈ url, notQuote c = true) ∧
      ciInf pat url = true ∧
      (ciPre ("http://".toList) url = true ∨ ciPre ("https://".toList) url = true) ∧
      ∃ pre qc, s = pre ++ url ++ qc :: rest := by
  simp only [matchAt] at h
  split at h
  case isFalse => exact absurd h (by simp)
  case isTrue hhref =>
  revert h
  split
  · intro h; exact absurd h (by simp)
  · next q s2 hdrop =>
    intro h
    split at h
    case isTrue => exact absurd h (by simp)
    case isFalse hq =>
    split at h
    case isTrue => exact absurd h (by simp)
    case isFalse hn0 =>
    split at h
    case isFalse => exact absurd h (by simp)
    case isTrue hinf =>
    revert h
    split
    · intro h; exact absurd h (by simp)
    · next qc rest2 hrest =>
      intro h
      have hurl : url = s2.take (schemeLen s2) ++ (s2.drop (schemeLen s2)).takeWhile notQuote
          ∧ rest = rest2 := by
        have := h
        simp only [Option.some.injEq, Prod.mk.injEq] at this
        exact ⟨this.1.symm, this.2.symm⟩
      obtain ⟨hu, hr⟩ := hurl
      -- the scheme prefix is either "http://" or "https://" (case-insensitively)
      have hscheme : (ciPre ("https://".toList) s2 = true ∧ schemeLen s2 = 8)
          ∨ (ciPre ("http://".toList) s2 = true ∧ schemeLen s2 = 7) := by
        by_cases h8 : ciPre ("https://".toList) s2 = true
        · refine Or.inl ⟨h8, ?_⟩
          simp only [schemeLen]
          rw [if_pos h8]
        · by_cases h7 : ciPre ("http://".toList) s2 = true
          · refine Or.inr ⟨h7, ?_⟩
            simp only [schemeLen]
            rw [if_neg h8, if_pos h7]
          · exfalso
            apply hn0
            simp only [schemeLen]
            rw [if_neg h8, if_neg h7]
            rfl
      refine ⟨?_, ?_, ?_, ?_⟩
      · -- every character of the captured URL is quote-free
        intro c hc
        rw [hu] at hc
        rw [List.mem_append] at hc
        cases hc with
        | inl hcs =>
          have hquotefree : ∀ a ∈ ("https://".toList) ++ ("http://".toList),
              lcc a ≠ '"' ∧ lcc a ≠ '\x27' := by decide
          cases hscheme with
          | inl hsch =>
            have := ciPre_take_no_quote ("https://".toList) s2
              (fun a ha => hquotefree a (List.mem_append.mpr (Or.inl ha))) hsch.1
            have hlen : ("https://".toList).length = 8 := by decide
            rw [hlen] at this
            rw [hsch.2] at hcs
            exact this c hcs
          | inr hsch =>
            have := ciPre_take_no_quote ("http://".toList) s2
              (fun a ha => hquotefree a (List.mem_append.mpr (Or.inr ha))) hsch.1
            have hlen : ("http://".toList).length = 7 := by decide
            rw [hlen] at this
            rw [hsch.2] at hcs
            exact this c hcs
        | inr hcr => exact List.mem_takeWhile_imp hcr
      · -- the pattern occurs (case-insensitively) in the captured URL
        rw [hu]
        exact ciInf_extend_left pat _ _ hinf
      · -- the captured URL starts with http:// or https:// (case-insensitively)
        cases hscheme with
        | inl hsch =>
          refine Or.inr ?_
          rw [hu, hsch.2]
          have := ciPre_take_append ("https://".toList) s2
            ((s2.drop 8).takeWhile notQuote) hsch.1
          have hlen : ("https://".toList).length = 8 := by decide
          rw [hlen] at this
          exact this
        | inr hsch =>
          refine Or.inl ?_
          rw [hu, hsch.2]
          have := ciPre_take_append ("http://".toList) s2
            ((s2.drop 7).takeWhile notQuote) hsch.1
          have hlen : ("http://".toList).length = 7 := by decide
          rw [hlen] at this
          exact this
      · -- the capture is a contiguous substring of the input
        refine ⟨s.take 5 ++ [q], qc, ?_⟩
        rw [hr]
        have h1 : s.take 5 ++ s.drop 5 = s := List.take_append_drop 5 s
        have h2 : s2.take (schemeLen s2) ++ s2.drop (schemeLen s2) = s2 :=
          List.take_append_drop _ s2
        have h3 : (s2.drop (schemeLen s2)).takeWhile notQuote
            ++ (s2.drop (schemeLen s2)).dropWhile notQuote
            = s2.drop (schemeLen s2) :=
          List.takeWhile_append_dropWhile notQuote _
        rw [hu]
        calc s = s.take 5 ++ s.drop 5 := h1.symm
      _ = s.take 5 ++ (q :: s2) := by rw [hdrop]
      _ = s.take 5 ++ (q :: (s2.take (schemeLen s2) ++ s2.drop (schemeLen s2))) := by
            rw [h2]
      _ = s.take 5 ++ (q :: (s2.take (schemeLen s2)
            ++ ((s2.drop (schemeLen s2)).takeWhile notQuote
              ++ (s2.drop (schemeLen s2)).dropWhile notQuote))) := by rw [h3]
      _ = s.take 5 ++ (q :: (s2.take (schemeLen s2)
            ++ ((s2.drop (schemeLen s2)).takeWhile notQuote
              ++ (qc :: rest2)))) := by rw [hrest]
      _ = (s.take 5 ++ [q])
            ++ (s2.take (schemeLen s2) ++ (s2.drop (schemeLen s2)).takeWhile notQuote)
            ++ (qc :: rest2) := by simp

theorem extractFuel_mem_spec (pat : List Char) :
    ∀ fuel s url, url ∈ extractFuel pat fuel s →
      (∀ c ∈ url, notQuote c = true) ∧
        ciInf pat url = true ∧
        (ciPre ("http://".toList) url = true ∨ ciPre ("https://".toList) url = true) ∧
        ∃ pre suf, s = pre ++ url ++ suf := by
  intro fuel
  induction fuel with
  | zero => intro s url h; simp [extractFuel] at h
  | succ f ih =>
    intro s url h
    cases s with
    | nil => simp [extractFuel] at h
    | cons c s' =>
      simp only [extractFuel] at h
      revert h
      split
      · next cap rest hmatch =>
        intro h
        obtain ⟨hq, hinf, hsch, pre0, qc, hdec⟩ :=
          matchAt_spec pat (c :: s') cap rest hmatch
        simp only [List.mem_cons] at h
        cases h with
        | inl hurl =>
          subst hurl
          exact ⟨hq, hinf, hsch, pre0, qc :: rest, hdec⟩
        | inr hurl =>
          obtain ⟨hq', hinf', hsch', pre', suf', hdec'⟩ := ih rest url hurl
          refine ⟨hq', hinf', hsch', pre0 ++ cap ++ qc :: pre', suf', ?_⟩
          rw [hdec, hdec']
          simp
      · intro h
        obtain ⟨hq', hinf', hsch', pre', suf', hdec'⟩ := ih s' url h
        exact ⟨hq', hinf', hsch', c :: pre', suf', by rw [hdec']; simp⟩

/-- Claim C8 (amended): every URL returned by `extractAffiliateLinks`
(source lines 91-99) is of the form `href=<quote><scheme>://…pattern…` with
scheme `http` or `https` (case-insensitively), contains the (unescaped)
pattern case-insensitively, and is a contiguous substring of the input; the
URL's internal characters exclude BOTH quote characters (`"` and `'`),
whichever one delimited the attribute — so a double-quoted URL can never
contain a single quote, contrary to the claim.  Matches are emitted in
left-to-right scan order with duplicates preserved, and an empty HTML input
yields the empty sequence. -/
theorem c8_extract_amended (html pat : List Char) :
    (∀ url ∈ extractAffiliateLinks html pat,
      (∀ c ∈ url, notQuote c = true) ∧
        ciInf (unescapeP pat) url = true ∧
        (ciPre ("http://".toList) url = true ∨ ciPre ("https://".toList) url = true) ∧
        ∃ pre suf, html = pre ++ url ++ suf) ∧
      extractAffiliateLinks [] pat = [] := by
  constructor
  · intro url hurl
    exact extractFuel_mem_spec (unescapeP pat) html.length html url hurl
  · rfl

/-- Witness for C8's amended theorem: the concrete extraction from
`href="https://x.ps/a"` with pattern `ps`. -/
theorem c8_extract_amended_witness :
    (∀ c ∈ ("https://x.ps/a".toList), notQuote c = true) ∧
      ciInf (unescapeP ("ps".toList)) ("https://x.ps/a".toList) = true ∧
      (ciPre ("http://".toList) ("https://x.ps/a".toList) = true ∨
        ciPre ("https://".toList) ("https://x.ps/a".toList) = true) ∧
      ∃ pre suf, ("href=\"https://x.ps/a\"".toList)
        = pre ++ ("https://x.ps/a".toList) ++ suf :=
  (c8_extract_amended ("href=\"https://x.ps/a\"".toList) ("ps".toList)).1
    ("https://x.ps/a".toList) (by decide)

/-- Claim C8 (counterexample): in `href="https://x.ps/a'b"` the URL is
delimited by double quotes and contains a single quote; the claim says such
a URL is returned whole, but the regex's `[^"']` class stops at the single
quote, so extraction returns the truncated `https://x.ps/a` (the single
quote acting as the closing delimiter) and never the full URL. -/
theorem c8_extract_counterexample :
    extractAffiliateLinks ("href=\"https://x.ps/a\x27b\"".toList) ("ps".toList)
        = [("https://x.ps/a".toList)] ∧
      ("https://x.ps/a\x27b".toList) ∉
        extractAffiliateLinks ("href=\"https://x.ps/a\x27b\"".toList) ("ps".toList) := by
  constructor
  · rfl
  · decide

/-- The file store: the list of HTML files found by the walk (source lines
111-119), in walk order, as (file id, text content) pairs. -/
abbrev FileSys : Type := List (Nat × List Char)

/-- `fs.readFileSync(file)`. -/
def readFile : FileSys → Nat → List Char
  | [], _ => []
  | (j, c) :: t, i => if j == i then c else readFile t i

/-- `fs.writeFileSync(file, content)`. -/
def writeFile : FileSys → Nat → List Char → FileSys
  | [], _, _ => []
  | (j, c) :: t, i, x =>
    if j == i then (j, x) :: writeFile t i x else (j, c) :: writeFile t i x

/-- The (url, file) occurrence stream of the scan loop (source lines
125-133): for each file in walk order, the URLs extracted from it in order. -/
def collectOcc (pat : List Char) (fs : FileSys) : List (List Char × Nat) :=
  (fs.map (fun p => (extractAffiliateLinks p.2 pat).map (fun u => (u, p.1)))).flatten

/-- `urlFileMap[url] = []` on first sight, then `urlFileMap[url].push(file)`
unconditionally (source lines 130-131). -/
def mapPush : List (List Char × List Nat) → List Char → Nat → List (List Char × List Nat)
  | [], u, f => [(u, [f])]
  | (v, l) :: m, u, f =>
    if v == u then (v, l ++ [f]) :: m else (v, l) :: mapPush m u f

/-- `urlFileMap[url]`, defaulting to the empty list. -/
def getFiles : List (List Char × List Nat) → List Char → List Nat
  | [], _ => []
  | (v, l) :: m, u => if v == u then l else getFiles m u

/-- One step of the scan loop body (source lines 128-132): `allUrls.add(url)`
(a JS `Set`: insert only when absent, keeping insertion order) and
`urlFileMap[url].push(file)`. -/
def indexStep (acc : List (List Char) × List (List Char × List Nat))
    (o : List Char × Nat) : List (List Char) × List (List Char × List Nat) :=
  (if acc.1.contains o.1 then acc.1 else acc.1 ++ [o.1], mapPush acc.2 o.1 o.2)

/-- The dedup pass (source lines 122-135): the unique URL list
(`uniqueUrls = [...allUrls]`) and the url → files map (`urlFileMap`). -/
def buildIndex (pat : List Char) (fs : FileSys) :
    List (List Char) × List (List Char × List Nat) :=
  (collectOcc pat fs).foldl indexStep ([], [])

/-- One `results` entry (source lines 151-156):
`{ url, ...result, filesUsing, replaced }`. -/
structure Entry where
  url : List Char
  ok : Bool
  status : Nat
  redirectTo : Option (List Char) := none
  error : Option (List Char) := none
  filesUsing : Nat
  replaced : Bool
deriving DecidableEq

/-- The spec's per-record status enum (§3 of the spec). -/
inductive LinkStatus where
  | Pending
  | Healthy
  | Redirected
  | Broken
deriving DecidableEq

/-- The terminal status a result entry denotes: `Broken` iff `ok = false`,
`Redirected` iff `ok` with a redirect target, else `Healthy`. -/
def entryStatus (e : Entry) : LinkStatus :=
  if e.ok then (if e.redirectTo.isSome then .Redirected else .Healthy)
  else .Broken

/-- The body of the per-URL check loop (source lines 147-178): consult the
checker's outcome for this URL, build the result entry, and when broken
rewrite every file in `urlFileMap[url]` via `split(url).join(fallback)`.
`env url` stands for `await checkUrlWithRetry(url, timeoutMs, retries)`. -/
def processUrl (fallback : List Char) (env : List Char → Outcome)
    (m : List (List Char × List Nat)) (st : FileSys) (url : List Char) :
    Entry × FileSys :=
  let r := env url
  let files := getFiles m url
  let entry : Entry :=
    { url := url, ok := r.ok, status := r.status, redirectTo := r.redirectTo,
      error := r.error, filesUsing := files.length, replaced := !r.ok }
  if r.ok then (entry, st)
  else
    (entry,
      files.foldl
        (fun s fid => writeFile s fid (jsReplaceAll (readFile s fid) url fallback)) st)

/-- The whole check loop over `uniqueUrls` (source lines 147-178), threading
the file store and accumulating the `results` list in order. -/
def runChecks (fallback : List Char) (env : List Char → Outcome)
    (m : List (List Char × List Nat)) :
    List (List Char) → FileSys → List Entry × FileSys
  | [], st => ([], st)
  | u :: us, st =>
    let pr := processUrl fallback env m st u
    let rec2 := runChecks fallback env m us pr.2
    (pr.1 :: rec2.1, rec2.2)

/-- `brokenCount` (source lines 145 and 158-159): incremented exactly once
per entry with `ok = false`. -/
def brokenCount (entries : List Entry) : Nat :=
  entries.countP (fun e => !e.ok)

/-- The reason string of the verdict payload (source line 226):
`r.error || "HTTP " + r.status` (JS `||`: an absent or empty error message
falls back to the HTTP form). -/
def reasonStr (e : Entry) : List Char :=
  match e.error with
  | some msg =>
    if msg.isEmpty then ("HTTP ".toList) ++ (Nat.repr e.status).toList else msg
  | none => ("HTTP ".toList) ++ (Nat.repr e.status).toList

/-- One line of the verdict payload (source line 226):
`` `${r.url} (${r.error || "HTTP " + r.status})` ``. -/
def brokenLine (e : Entry) : List Char :=
  e.url ++ (" (".toList) ++ reasonStr e ++ (")".toList)

/-- Plugin configuration (source lines 22-37 merged with inputs). -/
structure Config where
  affiliatePattern : List Char
  fallbackUrl : List Char
  fallbackLabel : List Char
  timeoutMs : Nat
  retries : Nat
  failOnBroken : Bool
  checkExternal : Bool

/-- The `DEFAULTS` object (source lines 22-37). -/
def DEFAULTS : Config :=
  { affiliatePattern := "nationalcouncilonstrength\\.sjv\\.io".toList
    fallbackUrl := "https://nationalcouncilonstrength.sjv.io/certfit-home".toList
    fallbackLabel := "NCSF Homepage".toList
    timeoutMs := 10000
    retries := 2
    failOnBroken := false
    checkExternal := false }

/-- What one `onPostBuild` run produces: the mutated file store, the
`results` list, and the build verdict — `some payload` when
`utils.build.failBuild` is invoked with the broken-link list (source lines
223-231), `none` when the run passes. -/
structure RunResult where
  files : FileSys
  entries : List Entry
  verdict : Option (List (List Char))
deriving DecidableEq

/-- Model of `onPostBuild` (source lines 103-232): scan and dedup, check
each unique URL once (in first-seen order), repair broken ones, and decide
the verdict.  `env url` is the outcome `checkUrlWithRetry` resolves for
that URL during this run. -/
def runPipeline (cfg : Config) (env : List Char → Outcome) (fs : FileSys) :
    RunResult :=
  let idx := buildIndex cfg.affiliatePattern fs
  let res := runChecks cfg.fallbackUrl env idx.2 idx.1 fs
  { files := res.2
    entries := res.1
    verdict :=
      if cfg.failOnBroken && decide (0 < brokenCount res.1) then
        some ((res.1.filter (fun e => e.replaced)).map brokenLine)
      else none }

theorem getFiles_mapPush (m : List (List Char × List Nat)) (v : List Char)
    (f : Nat) (u : List Char) :
    getFiles (mapPush m v f) u
      = if v == u then getFiles m u ++ [f] else getFiles m u := by
  induction m with
  | nil =>
    by_cases h : v = u
    · subst h; simp [mapPush, getFiles]
    · simp [mapPush, getFiles, h]
  | cons hd m ih =>
    obtain ⟨w, l⟩ := hd
    by_cases hwv : w = v
    · subst hwv
      by_cases hwu : w = u
      · subst hwu; simp [mapPush, getFiles]
      · simp [mapPush, getFiles, hwu]
    · by_cases hwu : w = u
      · have hvu : v ≠ u := fun h => hwv (hwu.trans h.symm)
        have huv : u ≠ v := fun h => hvu h.symm
        simp [mapPush, getFiles, hwv, hwu, hvu, huv]
      · simp [mapPush, getFiles, hwv, hwu, ih]

theorem foldl_indexStep_getFiles (occs : List (List Char × Nat)) :
    ∀ uq m u, getFiles ((occs.foldl indexStep (uq, m)).2) u
      = getFiles m u ++ (occs.filter (fun o => o.1 == u)).map Prod.snd := by
  induction occs with
  | nil => intro uq m u; simp
  | cons o occs ih =>
    intro uq m u
    obtain ⟨v, f⟩ := o
    have hstep : List.foldl indexStep (uq, m) ((v, f) :: occs)
        = List.foldl indexStep
            (if uq.contains v then uq else uq ++ [v], mapPush m v f) occs := rfl
    rw [hstep, ih, getFiles_mapPush]
    by_cases hvu : v = u
    · subst hvu
      simp [List.filter_cons]
    · have : ((v, f).1 == u) = false := by
        simp [hvu]
      simp [List.filter_cons, this, hvu]

theorem foldl_indexStep_mem (occs : List (List Char × Nat)) :
    ∀ uq m u, u ∈ (occs.foldl indexStep (uq, m)).1
      ↔ u ∈ uq ∨ u ∈ occs.map Prod.fst := by
  induction occs with
  | nil => intro uq m u; simp
  | cons o occs ih =>
    intro uq m u
    obtain ⟨v, f⟩ := o
    have hstep : List.foldl indexStep (uq, m) ((v, f) :: occs)
        = List.foldl indexStep
            (if uq.contains v then uq else uq ++ [v], mapPush m v f) occs := rfl
    rw [hstep, ih]
    by_cases hc : uq.contains v = true
    · have hv : v ∈ uq := List.elem_iff.mp hc
      simp only [hc, if_true, List.map_cons, List.mem_cons]
      constructor
      · rintro (h | h)
        · exact Or.inl h
        · exact Or.inr (Or.inr h)
      · rintro (h | h | h)
        · exact Or.inl h
        · exact Or.inl (h ▸ hv)
        · exact Or.inr h
    · have : uq.contains v = false := by
        cases h : uq.contains v with
        | true => exact absurd h hc
        | false => rfl
      simp only [this, Bool.false_eq_true, if_false, List.map_cons, List.mem_cons,
        List.mem_append, List.mem_singleton]
      tauto

theorem foldl_indexStep_nodup (occs : List (List Char × Nat)) :
    ∀ uq m, uq.Nodup → ((occs.foldl indexStep (uq, m)).1).Nodup := by
  induction occs with
  | nil => intro uq m h; simpa using h
  | cons o occs ih =>
    intro uq m h
    obtain ⟨v, f⟩ := o
    have hstep : List.foldl indexStep (uq, m) ((v, f) :: occs)
        = List.foldl indexStep
            (if uq.contains v then uq else uq ++ [v], mapPush m v f) occs := rfl
    rw [hstep]
    by_cases hc : uq.contains v = true
    · simp only [hc, if_true]
      exact ih _ _ h
    · have hf : uq.contains v = false := by
        cases hcc : uq.contains v with
        | true => exact absurd hcc hc
        | false => rfl
      simp only [hf, Bool.false_eq_true, if_false]
      apply ih
      have hv : v ∉ uq := fun hmem => hc (List.elem_iff.mpr hmem)
      simp [List.nodup_append, h, hv]

theorem buildIndex_mem_iff (pat : List Char) (fs : FileSys) (u : List Char) :
    u ∈ (buildIndex pat fs).1 ↔ u ∈ (collectOcc pat fs).map Prod.fst := by
  have := foldl_indexStep_mem (collectOcc pat fs) [] [] u
  simpa [buildIndex] using this

/-- Claim C1 (amended): the checker is consulted exactly once per distinct
URL — `uniqueUrls` (built from the JS `Set`) lists each occurring URL
exactly once, in first-seen order, and the per-URL loop of source line 147
iterates it once.  But `urlFileMap[U]` is NOT a deduplicated file list: the
scan pushes the file once per occurrence (source line 131), so it holds one
entry per occurrence of `U` in occurrence order, a file appearing as many
times as `U` occurs in it. -/
theorem c1_dedup_amended (pat : List Char) (fs : FileSys) :
    (buildIndex pat fs).1.Nodup ∧
      (∀ u, u ∈ (buildIndex pat fs).1 ↔ u ∈ (collectOcc pat fs).map Prod.fst) ∧
      (∀ u, getFiles (buildIndex pat fs).2 u
        = ((collectOcc pat fs).filter (fun o => o.1 == u)).map Prod.snd) := by
  refine ⟨?_, ?_, ?_⟩
  · exact foldl_indexStep_nodup (collectOcc pat fs) [] [] List.nodup_nil
  · intro u
    exact buildIndex_mem_iff pat fs u
  · intro u
    have := foldl_indexStep_getFiles (collectOcc pat fs) [] [] u
    simpa [buildIndex, getFiles] using this

/-- Claim C1 (counterexample): a URL occurring twice in the same single file
gets `urlFileMap[U] = [file, file]` — the file appears once per occurrence,
not "exactly once"; the claimed deduplicated value would be `[file]`. -/
theorem c1_dedup_counterexample :
    getFiles
        (buildIndex ("zz".toList)
          [(1, ("href=\"https://e.com/zz\" x href=\"https://e.com/zz\"".toList))]).2
        ("https://e.com/zz".toList)
      = [1, 1] ∧ ([1, 1] : List Nat) ≠ [1] := by
  constructor
  · rfl
  · decide

/-- Witness for C1's amended theorem: the occurrence-per-entry
characterisation evaluated on the two-occurrence single-file store. -/
theorem c1_dedup_amended_witness :
    getFiles
        (buildIndex ("zz".toList)
          [(1, ("href=\"https://e.com/zz\" x href=\"https://e.com/zz\"".toList))]).2
        ("https://e.com/zz".toList)
      = ((collectOcc ("zz".toList)
          [(1, ("href=\"https://e.com/zz\" x href=\"https://e.com/zz\"".toList))]).filter
            (fun o => o.1 == ("https://e.com/zz".toList))).map Prod.snd :=
  (c1_dedup_amended ("zz".toList)
    [(1, ("href=\"https://e.com/zz\" x href=\"https://e.com/zz\"".toList))]).2.2
    ("https://e.com/zz".toList)

/-- Claim C5 (confirmed): after the check loop processes a record,
`replaced = true` holds iff the record's status is `Broken` (outcome
`ok = false`), and a record that is not `Broken` (healthy or redirected)
is never replaced and triggers no file write — the store is returned
untouched. -/
theorem c5_replaced_iff_broken (fallback : List Char) (env : List Char → Outcome)
    (m : List (List Char × List Nat)) (st : FileSys) (url : List Char) :
    ((processUrl fallback env m st url).1.replaced = true ↔
        entryStatus (processUrl fallback env m st url).1 = LinkStatus.Broken) ∧
      (entryStatus (processUrl fallback env m st url).1 ≠ LinkStatus.Broken →
        (processUrl fallback env m st url).2 = st ∧
          (processUrl fallback env m st url).1.replaced = false) := by
  cases h : (env url).ok with
  | false =>
    constructor
    · simp [processUrl, entryStatus, h]
    · intro hc
      exfalso
      apply hc
      simp [processUrl, entryStatus, h]
  | true =>
    constructor
    · simp only [processUrl, entryStatus, h]
      simp
      split <;> simp
    · intro _
      constructor
      · simp [processUrl, h]
      · simp [processUrl, h]

/-- Witness for C5 at a concrete healthy probe: no mutation, not replaced. -/
theorem c5_replaced_iff_broken_witness :
    (processUrl ("https://e.com/z".toList) (fun _ => { status := 200, ok := true })
        [] [(1, ("x".toList))] ("https://e.com/zz".toList)).2 = [(1, ("x".toList))] ∧
      (processUrl ("https://e.com/z".toList) (fun _ => { status := 200, ok := true })
        [] [(1, ("x".toList))] ("https://e.com/zz".toList)).1.replaced = false :=
  (c5_replaced_iff_broken ("https://e.com/z".toList)
    (fun _ => { status := 200, ok := true }) [] [(1, ("x".toList))]
    ("https://e.com/zz".toList)).2 (by decide)

theorem runChecks_replaced_eq (fallback : List Char) (env : List Char → Outcome)
    (m : List (List Char × List Nat)) :
    ∀ urls st, ∀ e ∈ (runChecks fallback env m urls st).1,
      e.replaced = !e.ok := by
  intro urls
  induction urls with
  | nil => intro st e he; simp [runChecks] at he
  | cons u us ih =>
    intro st e he
    simp only [runChecks, List.mem_cons] at he
    cases he with
    | inl h =>
      subst h
      cases hok : (env u).ok with
      | true => simp [processUrl, hok]
      | false => simp [processUrl, hok]
    | inr h => exact ih _ e h

theorem runChecks_all_ok (fallback : List Char) (env : List Char → Outcome)
    (m : List (List Char × List Nat)) :
    ∀ urls st, (∀ u ∈ urls, (env u).ok = true) →
      (runChecks fallback env m urls st).2 = st ∧
        ∀ e ∈ (runChecks fallback env m urls st).1, e.ok = true := by
  intro urls
  induction urls with
  | nil => intro st _; exact ⟨rfl, by simp [runChecks]⟩
  | cons u us ih =>
    intro st hok
    have hu : (env u).ok = true := hok u (by simp)
    have hst : (processUrl fallback env m st u).2 = st := by
      simp [processUrl, hu]
    obtain ⟨h1, h2⟩ := ih ((processUrl fallback env m st u).2)
      (fun v hv => hok v (by simp [hv]))
    constructor
    · simp only [runChecks]
      rw [h1, hst]
    · intro e he
      simp only [runChecks, List.mem_cons] at he
      cases he with
      | inl h => subst h; simp [processUrl, hu]
      | inr h => exact h2 e h

/-- Claim C6 (confirmed): `utils.build.failBuild` is invoked iff
`failOnBroken` is true and `brokenCount > 0` (so with `brokenCount = 0` the
run passes whatever `failOnBroken` is), and the failure payload is exactly
one line per replaced entry — `url (reason)` with the reason being the error
message (JS `||`) or `"HTTP " + status` — so its length equals
`brokenCount`. -/
theorem c6_verdict_logic (cfg : Config) (env : List Char → Outcome) (fs : FileSys) :
    ((runPipeline cfg env fs).verdict ≠ none ↔
        cfg.failOnBroken = true ∧ 0 < brokenCount (runPipeline cfg env fs).entries) ∧
      ∀ p, (runPipeline cfg env fs).verdict = some p →
        p = ((runPipeline cfg env fs).entries.filter (fun e => e.replaced)).map
              brokenLine ∧
          p.length = brokenCount (runPipeline cfg env fs).entries := by
  have hrepl : ∀ e ∈ (runPipeline cfg env fs).entries, e.replaced = !e.ok :=
    runChecks_replaced_eq cfg.fallbackUrl env
      (buildIndex cfg.affiliatePattern fs).2 (buildIndex cfg.affiliatePattern fs).1 fs
  have hver : (runPipeline cfg env fs).verdict
      = if cfg.failOnBroken && decide (0 < brokenCount (runPipeline cfg env fs).entries)
        then some (((runPipeline cfg env fs).entries.filter
            (fun e => e.replaced)).map brokenLine)
        else none := rfl
  have hlen : (((runPipeline cfg env fs).entries.filter
      (fun e => e.replaced)).map brokenLine).length
      = brokenCount (runPipeline cfg env fs).entries := by
    rw [List.length_map, brokenCount, List.countP_eq_length_filter]
    congr 1
    exact List.filter_congr hrepl
  constructor
  · rw [hver]
    by_cases hfb : cfg.failOnBroken = true
    · by_cases hbc : 0 < brokenCount (runPipeline cfg env fs).entries
      · simp [hfb, hbc]
      · simp [hfb, hbc]
    · have : cfg.failOnBroken = false := by
        cases h : cfg.failOnBroken with
        | true => exact absurd h hfb
        | false => rfl
      simp [this]
  · intro p hp
    rw [hver] at hp
    by_cases hcond : (cfg.failOnBroken
        && decide (0 < brokenCount (runPipeline cfg env fs).entries)) = true
    · rw [if_pos hcond] at hp
      have hpeq : p = ((runPipeline cfg env fs).entries.filter
          (fun e => e.replaced)).map brokenLine := by
        injection hp.symm
      exact ⟨hpeq, by rw [hpeq, hlen]⟩
    · rw [if_neg hcond] at hp
      exact absurd hp (by simp)

/-- Concrete instance shared by several evaluations: pattern `zz`, fallback
`https://e.com/z` (which does not match the pattern), one URL
`https://e.com/zz` probing broken with HTTP 500, everything else healthy. -/
def cfg9 : Config :=
  { DEFAULTS with
    affiliatePattern := "zz".toList
    fallbackUrl := "https://e.com/z".toList }

/-- The broken URL of the concrete instance. -/
def u9 : List Char := "https://e.com/zz".toList

/-- The probe environment of the concrete instance: `u9` is broken (HTTP
500 on every attempt, hence after retries), every other URL healthy. -/
def env9 : List Char → Outcome := fun u =>
  if u == u9 then { status := 500, ok := false } else { status := 200, ok := true }

/-- The one-page file store of the concrete instance: `u9` occurs as an
href value and as a prefix of a second, longer href value. -/
def fs9 : FileSys :=
  [(1, ("href=\"https://e.com/zz\" href=\"https://e.com/zzz\"".toList))]

/-- Witness for C6: with `failOnBroken = true` and the broken `u9`, the
concrete run fails the build. -/
theorem c6_verdict_logic_witness :
    (runPipeline { cfg9 with failOnBroken := true } env9 fs9).verdict ≠ none :=
  (c6_verdict_logic { cfg9 with failOnBroken := true } env9 fs9).1.mpr
    ⟨rfl, by decide⟩

theorem occCount_pos_of_decomp (u pre suf s : List Char)
    (h : s = pre ++ u ++ suf) : 0 < occCount u s := by
  have h1 : 0 < occCount u (u ++ suf) := by
    cases u with
    | nil =>
      cases suf with
      | nil => simp [occCount, isPre]
      | cons c t => simp [occCount, isPre]
    | cons a p =>
      have : occCount (a :: p) ((a :: p) ++ suf)
          = (if isPre (a :: p) (a :: p ++ suf) then 1 else 0)
            + occCount (a :: p) (p ++ suf) := rfl
      rw [this, isPre_self_append (a :: p) suf]
      simp
  have h2 : occCount u (u ++ suf) ≤ occCount u (pre ++ (u ++ suf)) :=
    occCount_le_append u pre _
  rw [h, List.append_assoc]
  omega

theorem buildIndex_mem_occurs (pat : List Char) (fs : FileSys) (u : List Char)
    (h : u ∈ (buildIndex pat fs).1) :
    ∃ fc ∈ fs, 0 < occCount u fc.2 := by
  have hmem : u ∈ (collectOcc pat fs).map Prod.fst :=
    (buildIndex_mem_iff pat fs u).mp h
  simp only [collectOcc, List.map_flatten, List.map_map, List.mem_flatten,
    List.mem_map] at hmem
  obtain ⟨l, ⟨fc, hfc, hl⟩, hul⟩ := hmem
  subst hl
  simp only [List.map_map, List.mem_map, Function.comp] at hul
  obtain ⟨url, hurl, hequ⟩ := hul
  have : url = u := by simpa using hequ
  subst this
  obtain ⟨_, _, _, pre, suf, hdec⟩ :=
    extractFuel_mem_spec (unescapeP pat) fc.2.length fc.2 url hurl
  exact ⟨fc, hfc, occCount_pos_of_decomp url pre suf fc.2 hdec⟩

/-- Claim C9 (amended): a second pipeline run over repaired output is a
no-op under the conditions that actually suffice: (i) no broken URL still
occurs anywhere in the repaired files — then it cannot be re-extracted,
since every extracted URL is a contiguous substring of its file — and
(ii) every URL extracted from the repaired files probes healthy, in which
case the run rewrites no file and passes.  The claim's own hypothesis
("the fallback URL does not match affiliatePattern") is NOT sufficient:
the rewrite can recreate the broken URL across a replacement boundary
(see the counterexample). -/
theorem c9_idempotence_amended (cfg : Config) (env : List Char → Outcome)
    (fs : FileSys) :
    ((∀ u ∈ (buildIndex cfg.affiliatePattern fs).1, (env u).ok = true) →
        (runPipeline cfg env fs).files = fs ∧
          (runPipeline cfg env fs).verdict = none) ∧
      ∀ u0, (∀ fc ∈ fs, occCount u0 fc.2 = 0) →
        u0 ∉ (buildIndex cfg.affiliatePattern fs).1 := by
  constructor
  · intro hok
    obtain ⟨hfiles, hentries⟩ := runChecks_all_ok cfg.fallbackUrl env
      (buildIndex cfg.affiliatePattern fs).2
      (buildIndex cfg.affiliatePattern fs).1 fs hok
    have hbc : brokenCount (runPipeline cfg env fs).entries = 0 := by
      rw [brokenCount, List.countP_eq_length_filter]
      have : (runPipeline cfg env fs).entries.filter (fun e => !e.ok) = [] := by
        rw [List.filter_eq_nil_iff]
        intro e he
        have := hentries e he
        simp [this]
      rw [this]
      rfl
    refine ⟨hfiles, ?_⟩
    have hver : (runPipeline cfg env fs).verdict
        = if cfg.failOnBroken
            && decide (0 < brokenCount (runPipeline cfg env fs).entries)
          then some (((runPipeline cfg env fs).entries.filter
              (fun e => e.replaced)).map brokenLine)
          else none := rfl
    rw [hver, hbc]
    simp
  · intro u0 hno hmem
    obtain ⟨fc, hfc, hpos⟩ := buildIndex_mem_occurs cfg.affiliatePattern fs u0 hmem
    rw [hno fc hfc] at hpos
    exact Nat.lt_irrefl 0 hpos

/-- Witness for C9's amended theorem: over `fs9` with an all-healthy
environment the run leaves the store untouched, and a URL occurring nowhere
is not indexed. -/
theorem c9_idempotence_amended_witness :
    ((runPipeline cfg9 (fun _ => { status := 200, ok := true }) fs9).files = fs9 ∧
      (runPipeline cfg9 (fun _ => { status := 200, ok := true }) fs9).verdict
        = none) ∧
      ("https://q.example/zz".toList) ∉ (buildIndex cfg9.affiliatePattern fs9).1 :=
  ⟨(c9_idempotence_amended cfg9 (fun _ => { status := 200, ok := true }) fs9).1
      (fun u _ => rfl),
    (c9_idempotence_amended cfg9 (fun _ => { status := 200, ok := true }) fs9).2
      ("https://q.example/zz".toList) (by decide)⟩

/-- Claim C9 (counterexample): with fallback `https://e.com/z` — which does
not match the pattern `zz` — and broken URL `u9 = https://e.com/zz`, the
repair of `fs9` rewrites `href="https://e.com/zzz"` into
`href="https://e.com/zz"`, recreating `u9`; the second run re-extracts the
original broken URL and mutates the file store again, so the pipeline is
not idempotent under the claim's hypothesis. -/
theorem c9_idempotence_counterexample :
    ciInf (unescapeP cfg9.affiliatePattern) cfg9.fallbackUrl = false ∧
      (env9 u9).ok = false ∧
      u9 ∈ (buildIndex cfg9.affiliatePattern fs9).1 ∧
      u9 ∈ (buildIndex cfg9.affiliatePattern (runPipeline cfg9 env9 fs9).files).1 ∧
      (runPipeline cfg9 env9 (runPipeline cfg9 env9 fs9).files).files
        ≠ (runPipeline cfg9 env9 fs9).files := by
  refine ⟨rfl, rfl, by decide, by decide, by decide⟩

/-- The file store of C4's counterexample: `u9` occurs once as a complete
href value and once as a proper prefix of a longer plain-text URL. -/
def fs4 : FileSys :=
  [(1, ("href=\"https://e.com/zz\" and https://e.com/zzz text".toList))]

/-- Claim C4 (counterexample): `u9` is broken and file 1 is in its recorded
file list, yet after the repair step file 1 still contains the literal
substring `u9`: replacing `https://e.com/zz` by `https://e.com/z` inside
`https://e.com/zzz` leaves `https://e.com/zz` — global substring
replacement can recreate the removed string across a boundary, so "zero
occurrences remain" is false. -/
theorem c4_replaceAll_counterexample :
    (env9 u9).ok = false ∧
      u9 ∈ (buildIndex cfg9.affiliatePattern fs4).1 ∧
      getFiles (buildIndex cfg9.affiliatePattern fs4).2 u9 = [1] ∧
      occCount u9 (readFile (runPipeline cfg9 env9 fs4).files 1) ≠ 0 := by
  refine ⟨rfl, by decide, by decide, by decide⟩

/-- Claim C10 (confirmed): the default fallback URL itself matches the
default affiliate pattern (`nationalcouncilonstrength\.sjv\.io`), and a
rewritten occurrence `href="<fallback>"` is re-extracted by
`extractAffiliateLinks` under the default pattern on a subsequent run —
the idempotence property's precondition fails for the defaults. -/
theorem c10_default_fallback_matches :
    ciInf (unescapeP DEFAULTS.affiliatePattern) DEFAULTS.fallbackUrl = true ∧
      extractAffiliateLinks
          (("href=\"".toList) ++ DEFAULTS.fallbackUrl ++ ("\"".toList))
          DEFAULTS.affiliatePattern
        = [DEFAULTS.fallbackUrl] := by
  constructor
  · rfl
  · rfl
